import Mathlib

/-
Verification of the core Z80 code-generation engine (src/src/codegen.rs):
byte image, symbol table, fixup ledger, relocation resolver, relative-branch
encoding, Intel HEX serialization, and the unique-name generator.

The Rust `CodeGen` struct is embedded shallowly: `Vec<u8>` becomes `List Nat`
(each element a byte value, kept reduced mod 256 by the emit operations),
`HashMap<String, u16>` becomes an association list with insert-replaces-key
semantics, u16 arithmetic is `Nat` arithmetic reduced mod 65536 where the
Rust code computes in u16 (likewise mod 2^32 for the u32 unique-name
counter), and panics become `Except` errors.
-/

set_option maxHeartbeats 1000000
set_option maxRecDepth 8192

namespace RetroShield

/-- Embeds Rust `RomConfig`: origin, stack top, RAM start (all u16). -/
structure RomConfig where
  org : Nat
  stack_top : Nat
  ram_start : Nat
deriving DecidableEq

/-- Embeds `RomConfig::default()`. -/
def RomConfig.default : RomConfig :=
  { org := 0x0000, stack_top := 0x3FFF, ram_start := 0x2000 }

/-- Decimal digit character, as Rust's integer Display formatting renders it. -/
def digitChar (d : Nat) : Char := Char.ofNat (48 + d)

/-- Decimal rendering worker; structural recursion on a fuel bound that every
caller supplies strictly above the argument (the digit count never exceeds
the value itself). -/
def natDecimalGo (fuel : Nat) (n : Nat) : List Char :=
  match fuel with
  | 0 => []
  | fuel + 1 =>
      if n < 10 then [digitChar n]
      else natDecimalGo fuel (n / 10) ++ [digitChar (n % 10)]

/-- Decimal rendering of a natural number (list of digit characters), embedding
the rendering of the u32 counter performed by the Rust format string. -/
def natDecimal (n : Nat) : List Char := natDecimalGo (n + 1) n

/-- Decimal rendering of a natural number as a string. -/
def natDecimalStr (n : Nat) : String := String.mk (natDecimal n)

/-- Embeds the Rust `CodeGen` struct: the byte image `rom`, the symbol table
`labels` (association list, one entry per key), the fixup ledger `fixups`
(in recording order), the configuration, and the unique-name counter. -/
structure CodeGen where
  rom : List Nat
  labels : List (String × Nat)
  fixups : List (Nat × String)
  config : RomConfig
  unique_counter : Nat
deriving DecidableEq

namespace CodeGen

/-- Embeds `CodeGen::with_config`. -/
def with_config (config : RomConfig) : CodeGen :=
  { rom := [], labels := [], fixups := [], config := config, unique_counter := 0 }

/-- Embeds `CodeGen::new` (default config). -/
def new : CodeGen := with_config RomConfig.default

/-- Embeds `CodeGen::pos`: `org + rom.len()` in u16 arithmetic. -/
def pos (cg : CodeGen) : Nat := (cg.config.org + cg.rom.length) % 65536

/-- Embeds `CodeGen::size`. -/
def size (cg : CodeGen) : Nat := cg.rom.length

/-- Embeds `CodeGen::unique_label`: increments the session counter in u32
arithmetic — the increment wraps modulo 2^32, the release-build semantics of
the Rust addition (debug builds panic at the same boundary) — and returns
the string built by the Rust format string, which interpolates the given
text between a leading underscore and an underscore-delimited counter
value. Returns the name together with the updated generator state. -/
def unique_label (cg : CodeGen) (pre : String) : String × CodeGen :=
  let c := (cg.unique_counter + 1) % 4294967296
  ("_" ++ pre ++ "_" ++ natDecimalStr c, { cg with unique_counter := c })

/-- Embeds `CodeGen::emit`: append raw bytes (u8 values). -/
def emit (cg : CodeGen) (bytes : List Nat) : CodeGen :=
  { cg with rom := cg.rom ++ bytes.map (fun b => b % 256) }

/-- Embeds `CodeGen::emit_byte`. -/
def emit_byte (cg : CodeGen) (b : Nat) : CodeGen :=
  { cg with rom := cg.rom ++ [b % 256] }

/-- Embeds `CodeGen::emit_word`: little-endian, low byte then high byte. -/
def emit_word (cg : CodeGen) (w : Nat) : CodeGen :=
  { cg with rom := cg.rom ++ [w % 256, w / 256 % 256] }

/-- UTF-8 bytes of a string, as Rust `str::bytes` yields them. -/
def stringBytes (s : String) : List Nat :=
  s.toUTF8.toList.map (fun b => b.toNat)

/-- Embeds `CodeGen::emit_string`: bytes of the string then a 0 terminator. -/
def emit_string (cg : CodeGen) (s : String) : CodeGen :=
  { cg with rom := cg.rom ++ stringBytes s ++ [0] }

/-- Embeds `CodeGen::emit_string_raw`. -/
def emit_string_raw (cg : CodeGen) (s : String) : CodeGen :=
  { cg with rom := cg.rom ++ stringBytes s }

/-- HashMap insert on the association-list model: replaces the entry with the
given key when present, otherwise adds a new entry. -/
def insertLabel : List (String × Nat) → String → Nat → List (String × Nat)
  | [], n, a => [(n, a)]
  | (k, v) :: rest, n, a =>
      if k = n then (n, a) :: rest else (k, v) :: insertLabel rest n a

/-- HashMap get on the association-list model. -/
def getLabel : List (String × Nat) → String → Option Nat
  | [], _ => none
  | (k, v) :: rest, n => if k = n then some v else getLabel rest n

/-- Embeds `CodeGen::label`: bind the name to the current position. -/
def label (cg : CodeGen) (name : String) : CodeGen :=
  { cg with labels := insertLabel cg.labels name cg.pos }

/-- Embeds `CodeGen::has_label`. -/
def has_label (cg : CodeGen) (name : String) : Bool :=
  (getLabel cg.labels name).isSome

/-- Embeds `CodeGen::get_label`. -/
def get_label (cg : CodeGen) (name : String) : Option Nat :=
  getLabel cg.labels name

/-- Embeds `CodeGen::fixup`: push `(rom.len(), name)` on the ledger, then
emit the two placeholder bytes via `emit_word(0)`. -/
def fixup (cg : CodeGen) (name : String) : CodeGen :=
  emit_word { cg with fixups := cg.fixups ++ [(cg.rom.length, name)] } 0

/-- Failure modes of `CodeGen::resolve_fixups`, which panics in Rust: the
undefined-label panic, or the out-of-bounds indexing panic. -/
inductive ResolveErr where
  | undefinedLabel (name : String)
  | indexOutOfBounds (offset : Nat)
deriving DecidableEq

/-- One iteration of the `resolve_fixups` loop: look the entry's label up
(panic when missing), then store the low byte at the recorded offset and the
high byte at the next index (panic when out of bounds). -/
def resolveOne (ls : List (String × Nat)) (rom : List Nat) (e : Nat × String) :
    Except ResolveErr (List Nat) :=
  match getLabel ls e.2 with
  | none => .error (.undefinedLabel e.2)
  | some addr =>
      if e.1 + 1 < rom.length then
        .ok ((rom.set e.1 (addr % 256)).set (e.1 + 1) (addr / 256 % 256))
      else
        .error (.indexOutOfBounds e.1)

/-- The `resolve_fixups` loop over the ledger, in recording order. -/
def resolveList (ls : List (String × Nat)) :
    List Nat → List (Nat × String) → Except ResolveErr (List Nat)
  | rom, [] => .ok rom
  | rom, e :: rest =>
      match resolveOne ls rom e with
      | .error err => .error err
      | .ok rom' => resolveList ls rom' rest

/-- Embeds `CodeGen::resolve_fixups`: patch every ledger slot with its
label's address; the ledger itself is read, not cleared. -/
def resolve_fixups (cg : CodeGen) : Except ResolveErr CodeGen :=
  match resolveList cg.labels cg.rom cg.fixups with
  | .error err => .error err
  | .ok rom' => .ok { cg with rom := rom' }

/-- Sign-decode a byte as an 8-bit two's-complement integer. -/
def decodeI8 (b : Nat) : Int := if b < 128 then (b : Int) else (b : Int) - 256

/-- Embeds `CodeGen::emit_relative`: the target must already be defined
(else Rust panics); the displacement is `target - (pos + 1)` computed in i32
and truncated to 8 bits, and that one byte is appended. -/
def emit_relative (cg : CodeGen) (target : String) : Except String CodeGen :=
  match getLabel cg.labels target with
  | none => .error target
  | some t =>
      let current := (cg.pos + 1) % 65536
      .ok { cg with rom := cg.rom ++ [(((t : Int) - (current : Int)) % 256).toNat] }

/-- Chunking worker; structural recursion on a fuel bound that every caller
supplies at or above the list length. -/
def chunks16Go (fuel : Nat) (l : List Nat) : List (List Nat) :=
  match fuel, l with
  | _, [] => []
  | 0, _ :: _ => []
  | fuel + 1, b :: rest => ((b :: rest).take 16) :: chunks16Go fuel ((b :: rest).drop 16)

/-- The chunking of `rom.chunks(16)` used by `CodeGen::write_hex`. -/
def chunks16 (l : List Nat) : List (List Nat) := chunks16Go l.length l

/-- One Intel HEX data record before rendering: length byte, 16-bit record
address, data bytes, checksum byte. -/
structure HexRecord where
  len : Nat
  addr : Nat
  data : List Nat
  checksum : Nat
deriving DecidableEq

/-- The checksum computation of `write_hex`: wrapping byte sum of length,
address high byte, address low byte and the data, then two's-complement
negation (`(!checksum).wrapping_add(1)`). -/
def hexChecksum (len addr : Nat) (chunk : List Nat) : Nat :=
  (256 - (len + addr / 256 % 256 + addr % 256 + chunk.sum) % 256) % 256

/-- One data record of `write_hex` for the chunk with index `i`:
address `org + i * 16` in u16 arithmetic, length `chunk.len() as u8`. -/
def mkHexRecord (org i : Nat) (chunk : List Nat) : HexRecord :=
  { len := chunk.length % 256
    addr := (org + i * 16) % 65536
    data := chunk
    checksum := hexChecksum (chunk.length % 256) ((org + i * 16) % 65536) chunk }

/-- The enumerated loop of `write_hex` over the 16-byte chunks. -/
def hexRecordsAux (org : Nat) : Nat → List (List Nat) → List HexRecord
  | _, [] => []
  | i, c :: rest => mkHexRecord org i c :: hexRecordsAux org (i + 1) rest

/-- All data records `write_hex` emits for a generator state. -/
def hexRecords (cg : CodeGen) : List HexRecord :=
  hexRecordsAux cg.config.org 0 (chunks16 cg.rom)

/-- Uppercase hexadecimal digit. -/
def hexDigit (d : Nat) : Char :=
  if d < 10 then Char.ofNat (48 + d) else Char.ofNat (55 + d)

/-- Two-digit uppercase hexadecimal rendering (Rust format 02X on a byte). -/
def hex2 (n : Nat) : String :=
  String.mk [hexDigit (n / 16 % 16), hexDigit (n % 16)]

/-- Four-digit uppercase hexadecimal rendering (Rust format 04X on a u16). -/
def hex4 (n : Nat) : String := hex2 (n / 256 % 256) ++ hex2 (n % 256)

/-- Rendering of one data record line of `write_hex`. -/
def hexRecordLine (r : HexRecord) : String :=
  ":" ++ hex2 r.len ++ hex4 r.addr ++ "00" ++
    String.join (r.data.map hex2) ++ hex2 r.checksum

/-- The full line sequence `write_hex` writes: the data records in order,
then the literal end-of-file record. -/
def write_hex_lines (cg : CodeGen) : List String :=
  (hexRecords cg).map hexRecordLine ++ [":00000001FF"]

/-- Embeds `CodeGen::write_bin`: the raw image bytes, verbatim. -/
def write_bin_bytes (cg : CodeGen) : List Nat := cg.rom

/-- Generator states reachable from a fresh session by the core emit-phase
operations (the byte and string appends, label definition, fixup recording,
and relative-displacement emission). -/
inductive Reachable : CodeGen → Prop where
  | start (cfg : RomConfig) : Reachable (with_config cfg)
  | emit_step {cg : CodeGen} (bytes : List Nat) :
      Reachable cg → Reachable (emit cg bytes)
  | emit_byte_step {cg : CodeGen} (b : Nat) :
      Reachable cg → Reachable (emit_byte cg b)
  | emit_word_step {cg : CodeGen} (w : Nat) :
      Reachable cg → Reachable (emit_word cg w)
  | emit_string_step {cg : CodeGen} (s : String) :
      Reachable cg → Reachable (emit_string cg s)
  | emit_string_raw_step {cg : CodeGen} (s : String) :
      Reachable cg → Reachable (emit_string_raw cg s)
  | label_step {cg : CodeGen} (n : String) :
      Reachable cg → Reachable (label cg n)
  | fixup_step {cg : CodeGen} (n : String) :
      Reachable cg → Reachable (fixup cg n)
  | unique_label_step {cg : CodeGen} (p : String) :
      Reachable cg → Reachable (unique_label cg p).2
  | emit_relative_step {cg cg' : CodeGen} (n : String) :
      Reachable cg → emit_relative cg n = .ok cg' → Reachable cg'

/-- Value the resolver's loop stores at image index `j` when it processes
ledger entry `e` (none when the entry does not touch `j` or its label is
undefined): the address low byte at the recorded offset, the high byte one
past it. Verification auxiliary describing `resolve_fixups`. -/
def writeOf (ls : List (String × Nat)) (e : Nat × String) (j : Nat) : Option Nat :=
  match getLabel ls e.2 with
  | none => none
  | some a =>
      if j = e.1 then some (a % 256)
      else if j = e.1 + 1 then some (a / 256 % 256)
      else none

/-- Value the last ledger entry writing image index `j` stores there, if any;
entries later in the ledger override earlier ones. Verification auxiliary
describing `resolve_fixups`. -/
def storeVal (ls : List (String × Nat)) (fs : List (Nat × String)) (j : Nat) : Option Nat :=
  match fs with
  | [] => none
  | e :: rest =>
      match storeVal ls rest j with
      | some v => some v
      | none => writeOf ls e j

/-- Structural invariant of every emit-phase session state: each ledger slot
lies inside the image, ledger offsets are strictly increasing two-byte
disjoint slots, and every symbol-table address fits in 16 bits. -/
def WellFormed (cg : CodeGen) : Prop :=
  (∀ e ∈ cg.fixups, e.1 + 1 < cg.rom.length) ∧
  cg.fixups.Pairwise (fun e1 e2 => e1.1 + 1 < e2.1) ∧
  (∀ kv ∈ cg.labels, kv.2 < 65536)

/-- Example session: one fixup on "L", then the definition of "L" at
address 2. -/
def fixExample : CodeGen := (CodeGen.new.fixup "L").label "L"

/-- Example session: a fixup whose label is never defined. -/
def undefExample : CodeGen := CodeGen.new.fixup "missing"

/-- Example session: two fixups on distinct labels, both defined afterward. -/
def twoFixExample : CodeGen :=
  (((CodeGen.new.fixup "L").fixup "M").label "L").label "M"

/-- Example session: the spec's relative-branch scenario (label defined at 0,
three bytes emitted, displacement byte pending at position 3). -/
def relExample : CodeGen :=
  (((CodeGen.new.label "loop").emit_byte 0).emit_byte 0).emit_byte 24

/-- Example session: a label at address 0 followed by 200 bytes, so that a
relative branch back to it needs a displacement of -201, outside the
signed 8-bit range. -/
def farExample : CodeGen := (CodeGen.new.label "a").emit (List.replicate 200 0)

/-- Example session for the serializer: a two-byte image. -/
def hexExample : CodeGen := CodeGen.new.emit [18, 52]

/-- Inserting a binding makes lookup of that key return the new value. -/
theorem getLabel_insertLabel_self (ls : List (String × Nat)) (n : String) (a : Nat) :
    getLabel (insertLabel ls n a) n = some a := by
  induction ls with
  | nil => simp [insertLabel, getLabel]
  | cons kv rest ih =>
      obtain ⟨k, v⟩ := kv
      by_cases h : k = n
      · simp [insertLabel, getLabel, h]
      · simp [insertLabel, getLabel, h, ih]

/-- Inserting a binding leaves lookup of every other key unchanged. -/
theorem getLabel_insertLabel_ne (ls : List (String × Nat)) (n m : String) (a : Nat)
    (h : m ≠ n) : getLabel (insertLabel ls n a) m = getLabel ls m := by
  induction ls with
  | nil =>
      simp only [insertLabel, getLabel]
      rw [if_neg (Ne.symm h)]
  | cons kv rest ih =>
      obtain ⟨k, v⟩ := kv
      simp only [insertLabel]
      by_cases hk : k = n
      · subst hk
        rw [if_pos rfl]
        simp only [getLabel]
        rw [if_neg (Ne.symm h), if_neg (Ne.symm h)]
      · rw [if_neg hk]
        simp only [getLabel]
        by_cases hm : k = m
        · rw [if_pos hm, if_pos hm]
        · rw [if_neg hm, if_neg hm]
          exact ih

/-- A successful lookup comes from an entry of the table. -/
theorem getLabel_mem {ls : List (String × Nat)} {n : String} {a : Nat}
    (h : getLabel ls n = some a) : (n, a) ∈ ls := by
  induction ls with
  | nil => simp [getLabel] at h
  | cons kv rest ih =>
      obtain ⟨k, v⟩ := kv
      by_cases hk : k = n
      · subst hk
        simp [getLabel] at h
        subst h
        exact List.mem_cons_self _ _
      · simp [getLabel, hk] at h
        exact List.mem_cons_of_mem _ (ih h)

/-- C3: `record-fixup(name)` is one atomic step that appends exactly the two
placeholder zero bytes to the byte image and appends exactly the entry
(offset of those two bytes, name) to the fixup ledger; it is total (the name
need not be defined in the symbol table), and no other field of the session
state changes. -/
theorem fixup_atomic_effect (cg : CodeGen) (name : String) :
    cg.fixup name =
      { cg with rom := cg.rom ++ [0, 0],
                fixups := cg.fixups ++ [(cg.rom.length, name)] } := rfl

/-- C7: defining a name binds it to the current position, silently
overwriting any previous binding (a later lookup returns the most recent
definition); defining one name does not disturb other bindings, and no core
operation ever removes a binding (the non-label operations leave the symbol
table untouched, and definition preserves boundness of every name). -/
theorem label_overwrite_last_wins (cg cg' cg'' : CodeGen) (n m s : String)
    (bs : List Nat) (b w : Nat) :
    getLabel (cg.label n).labels n = some cg.pos
    ∧ (m ≠ n → getLabel (cg.label n).labels m = getLabel cg.labels m)
    ∧ ((getLabel cg.labels m).isSome → (getLabel (cg.label n).labels m).isSome)
    ∧ (cg.emit bs).labels = cg.labels
    ∧ (cg.emit_byte b).labels = cg.labels
    ∧ (cg.emit_word w).labels = cg.labels
    ∧ (cg.emit_string s).labels = cg.labels
    ∧ (cg.emit_string_raw s).labels = cg.labels
    ∧ (cg.fixup s).labels = cg.labels
    ∧ (cg.unique_label s).2.labels = cg.labels
    ∧ (cg.resolve_fixups = .ok cg' → cg'.labels = cg.labels)
    ∧ (cg.emit_relative s = .ok cg'' → cg''.labels = cg.labels) := by
  refine ⟨getLabel_insertLabel_self cg.labels n cg.pos, ?_, ?_, rfl, rfl, rfl, rfl, rfl,
    rfl, rfl, ?_, ?_⟩
  · intro hmn
    exact getLabel_insertLabel_ne cg.labels n m cg.pos hmn
  · intro hsome
    by_cases hmn : m = n
    · subst hmn
      simp [CodeGen.label, getLabel_insertLabel_self]
    · simpa [CodeGen.label, getLabel_insertLabel_ne cg.labels n m cg.pos hmn] using hsome
  · intro h
    unfold resolve_fixups at h
    cases hres : resolveList cg.labels cg.rom cg.fixups with
    | error e => rw [hres] at h; cases h
    | ok rom' =>
        rw [hres] at h
        cases h
        rfl
  · intro h
    unfold emit_relative at h
    cases hg : getLabel cg.labels s with
    | none => rw [hg] at h; cases h
    | some t =>
        rw [hg] at h
        cases h
        rfl

/-- Witness for the label-overwrite theorem at concrete inputs. -/
theorem label_overwrite_last_wins_witness :
    getLabel ((CodeGen.new.label "a").label "a").labels "a" = some 0 ∧
    getLabel (CodeGen.new.label "a").labels "b" = getLabel CodeGen.new.labels "b" ∧
    CodeGen.new.labels = CodeGen.new.labels := by
  refine ⟨?_, ?_, ?_⟩
  · exact (label_overwrite_last_wins (CodeGen.new.label "a") CodeGen.new CodeGen.new
      "a" "b" "s" [] 0 0).1
  · exact (label_overwrite_last_wins CodeGen.new CodeGen.new CodeGen.new
      "a" "b" "s" [] 0 0).2.1 (by decide)
  · exact (label_overwrite_last_wins CodeGen.new CodeGen.new CodeGen.new
      "a" "b" "s" [] 0 0).2.2.2.2.2.2.2.2.2.2.1 rfl

/-- Reduction of `emit_relative` on a defined label, exactly as the code
computes it (u16 position arithmetic, i32 subtraction, 8-bit truncation). -/
theorem emit_relative_eq (cg : CodeGen) (l : String) (t : Nat)
    (h : getLabel cg.labels l = some t) :
    cg.emit_relative l =
      .ok { cg with rom := cg.rom ++
        [(((t : Int) - (((cg.pos + 1) % 65536 : Nat) : Int)) % 256).toNat] } := by
  unfold emit_relative
  rw [h]

/-- C5: for a relative-branch emission with defined target address `t` and
displacement byte appended at position `pos`, the operation always succeeds
and the byte appended is the 8-bit truncation `(t - (pos + 1)) mod 256` of
the signed difference; out-of-range differences silently wrap. -/
theorem emit_relative_byte_value (cg : CodeGen) (l : String) (t : Nat)
    (h : getLabel cg.labels l = some t) :
    cg.emit_relative l =
      .ok { cg with rom := cg.rom ++
        [(((t : Int) - ((cg.pos : Int) + 1)) % 256).toNat] } := by
  rw [emit_relative_eq cg l t h]
  have hb : (((t : Int) - (((cg.pos + 1) % 65536 : Nat) : Int)) % 256).toNat
      = (((t : Int) - ((cg.pos : Int) + 1)) % 256).toNat := by
    push_cast
    omega
  rw [hb]

/-- Witness for the displacement-byte theorem: the spec's concrete scenario
(label at 0, three bytes emitted, branch back) emits the byte 0xFC. -/
theorem emit_relative_byte_value_witness :
    getLabel relExample.labels "loop" = some 0 ∧
    relExample.emit_relative "loop" = .ok { relExample with rom := [0, 0, 24, 252] } := by
  refine ⟨by decide, ?_⟩
  exact emit_relative_byte_value relExample "loop" 0 (by decide)

/-- C4 as amended: when the true displacement `t - (pos + 1)` fits the
signed 8-bit range (and the position arithmetic does not wrap the 16-bit
space), decoding the emitted byte as a signed 8-bit integer `d` satisfies
`t = pos + 1 + d`. -/
theorem emit_relative_decode_in_range (cg : CodeGen) (l : String) (t : Nat)
    (h : getLabel cg.labels l = some t)
    (hpos : cg.config.org + cg.rom.length + 1 < 65536)
    (hlo : (-128 : Int) ≤ (t : Int) - ((cg.pos : Int) + 1))
    (hhi : (t : Int) - ((cg.pos : Int) + 1) ≤ 127) :
    ∃ b : Nat, cg.emit_relative l = .ok { cg with rom := cg.rom ++ [b] } ∧
      (t : Int) = (cg.pos : Int) + 1 + decodeI8 b := by
  refine ⟨_, emit_relative_eq cg l t h, ?_⟩
  simp only [decodeI8, CodeGen.pos] at hlo hhi ⊢
  push_cast at hlo hhi ⊢
  split <;> omega

/-- Witness for the amended decode law at the spec's concrete scenario. -/
theorem emit_relative_decode_in_range_witness :
    ∃ b : Nat, relExample.emit_relative "loop" = .ok { relExample with rom := relExample.rom ++ [b] } ∧
      (0 : Int) = (relExample.pos : Int) + 1 + decodeI8 b :=
  emit_relative_decode_in_range relExample "loop" 0 (by decide) (by decide)
    (by decide) (by decide)

/-- Counterexample to C4 as stated: in the session `farExample` the label
"a" is defined at address 0 and the displacement byte is appended at
position 200; the emission succeeds, the emitted byte is 55, it decodes to
+55, and 0 is not 200 + 1 + 55 — the universal decode law fails because the
displacement -201 wrapped. -/
theorem emit_relative_decode_wraps :
    getLabel farExample.labels "a" = some 0 ∧
    farExample.pos = 200 ∧
    farExample.emit_relative "a" = .ok { farExample with rom := farExample.rom ++ [55] } ∧
    decodeI8 55 = 55 ∧
    (0 : Int) ≠ (200 : Int) + 1 + decodeI8 55 := by
  refine ⟨by decide, by decide, rfl, by decide, by decide⟩

/-- Elimination for a successful resolver step: the label resolved, the slot
was in bounds, and the result is the doubly-updated image. -/
theorem resolveOne_ok_elim {ls : List (String × Nat)} {rom : List Nat} {e : Nat × String}
    {rom1 : List Nat} (h : resolveOne ls rom e = .ok rom1) :
    ∃ a, getLabel ls e.2 = some a ∧ e.1 + 1 < rom.length ∧
      rom1 = (rom.set e.1 (a % 256)).set (e.1 + 1) (a / 256 % 256) := by
  unfold resolveOne at h
  split at h
  · cases h
  · rename_i a hg
    split at h
    · rename_i hb
      cases h
      exact ⟨a, hg, hb, rfl⟩
    · cases h

/-- Introduction for a successful resolver step. -/
theorem resolveOne_ok_intro {ls : List (String × Nat)} {rom : List Nat} {e : Nat × String}
    {a : Nat} (hg : getLabel ls e.2 = some a) (hb : e.1 + 1 < rom.length) :
    resolveOne ls rom e = .ok ((rom.set e.1 (a % 256)).set (e.1 + 1) (a / 256 % 256)) := by
  unfold resolveOne
  split
  · rename_i heq
    rw [hg] at heq
    cases heq
  · rename_i a' heq
    have ha : a' = a := by
      rw [hg] at heq
      exact (Option.some.inj heq).symm
    subst ha
    rw [if_pos hb]

/-- A successful resolver step preserves the image length. -/
theorem resolveOne_ok_length {ls : List (String × Nat)} {rom : List Nat} {e : Nat × String}
    {rom1 : List Nat} (h : resolveOne ls rom e = .ok rom1) : rom1.length = rom.length := by
  obtain ⟨a, _, _, rfl⟩ := resolveOne_ok_elim h
  simp [List.length_set]

/-- A successful resolver step does not change indices outside the entry's
two-byte slot. -/
theorem resolveOne_frame {ls : List (String × Nat)} {rom : List Nat} {e : Nat × String}
    {rom1 : List Nat} (h : resolveOne ls rom e = .ok rom1) {j : Nat}
    (hw : writeOf ls e j = none) : rom1[j]? = rom[j]? := by
  obtain ⟨a, hg, hb, rfl⟩ := resolveOne_ok_elim h
  unfold writeOf at hw
  split at hw
  · rename_i heq
    rw [hg] at heq
    cases heq
  · rename_i a' heq
    have ha : a' = a := by
      rw [hg] at heq
      exact (Option.some.inj heq).symm
    subst ha
    by_cases h1 : j = e.1
    · rw [if_pos h1] at hw; cases hw
    · rw [if_neg h1] at hw
      by_cases h2 : j = e.1 + 1
      · rw [if_pos h2] at hw; cases hw
      · rw [List.getElem?_set, if_neg (by omega), List.getElem?_set, if_neg (by omega)]

/-- A successful resolver step stores the entry's bytes at its slot. -/
theorem resolveOne_write {ls : List (String × Nat)} {rom : List Nat} {e : Nat × String}
    {rom1 : List Nat} (h : resolveOne ls rom e = .ok rom1) {j v : Nat}
    (hw : writeOf ls e j = some v) : rom1[j]? = some v := by
  obtain ⟨a, hg, hb, rfl⟩ := resolveOne_ok_elim h
  unfold writeOf at hw
  split at hw
  · rename_i heq
    rw [hg] at heq
    cases heq
  · rename_i a' heq
    have ha : a' = a := by
      rw [hg] at heq
      exact (Option.some.inj heq).symm
    subst ha
    by_cases h1 : j = e.1
    · rw [if_pos h1] at hw
      cases hw
      subst h1
      rw [List.getElem?_set, if_neg (by omega), List.getElem?_set, if_pos rfl,
        if_pos (by omega)]
    · rw [if_neg h1] at hw
      by_cases h2 : j = e.1 + 1
      · rw [if_pos h2] at hw
        cases hw
        subst h2
        rw [List.getElem?_set, if_pos rfl, if_pos (by rw [List.length_set]; omega)]
      · rw [if_neg h2] at hw
        cases hw

/-- A successful resolver run preserves the image length. -/
theorem resolveList_ok_length {ls : List (String × Nat)} {rom : List Nat}
    {fs : List (Nat × String)} {rom' : List Nat}
    (hok : resolveList ls rom fs = .ok rom') : rom'.length = rom.length := by
  induction fs generalizing rom with
  | nil => unfold resolveList at hok; cases hok; rfl
  | cons e rest ih =>
      unfold resolveList at hok
      split at hok
      · cases hok
      · rename_i rom1 hre
        rw [ih hok, resolveOne_ok_length hre]

/-- A successful resolver run leaves every index outside all written slots
unchanged. -/
theorem resolveList_getElem?_none {ls : List (String × Nat)} {rom : List Nat}
    {fs : List (Nat × String)} {rom' : List Nat}
    (hok : resolveList ls rom fs = .ok rom') {j : Nat}
    (hs : storeVal ls fs j = none) : rom'[j]? = rom[j]? := by
  induction fs generalizing rom with
  | nil => unfold resolveList at hok; cases hok; rfl
  | cons e rest ih =>
      unfold resolveList at hok
      split at hok
      · cases hok
      · rename_i rom1 hre
        unfold storeVal at hs
        split at hs
        · cases hs
        · rename_i hrest
          rw [ih hok hrest, resolveOne_frame hre hs]

/-- A successful resolver run leaves at every written index the value of the
last ledger entry writing it. -/
theorem resolveList_getElem?_some {ls : List (String × Nat)} {rom : List Nat}
    {fs : List (Nat × String)} {rom' : List Nat}
    (hok : resolveList ls rom fs = .ok rom') {j v : Nat}
    (hs : storeVal ls fs j = some v) : rom'[j]? = some v := by
  induction fs generalizing rom with
  | nil => unfold storeVal at hs; cases hs
  | cons e rest ih =>
      unfold resolveList at hok
      split at hok
      · cases hok
      · rename_i rom1 hre
        unfold storeVal at hs
        split at hs
        · rename_i v' hrest
          cases hs
          exact ih hok hrest
        · rename_i hrest
          rw [resolveList_getElem?_none hok hrest, resolveOne_write hre hs]

/-- Resolver success depends only on the symbol table and the image length:
a run that succeeded also succeeds from any same-length image. -/
theorem resolveList_ok_exists {ls : List (String × Nat)} {rom : List Nat}
    {fs : List (Nat × String)} {rom' : List Nat}
    (h : resolveList ls rom fs = .ok rom') {rom2 : List Nat}
    (hlen : rom2.length = rom.length) :
    ∃ rom2', resolveList ls rom2 fs = .ok rom2' := by
  induction fs generalizing rom rom2 with
  | nil => exact ⟨rom2, rfl⟩
  | cons e rest ih =>
      unfold resolveList at h
      split at h
      · cases h
      · rename_i rom1 hre
        obtain ⟨a, hg, hb, hrom1⟩ := resolveOne_ok_elim hre
        have hre2 : resolveOne ls rom2 e =
            .ok ((rom2.set e.1 (a % 256)).set (e.1 + 1) (a / 256 % 256)) :=
          resolveOne_ok_intro hg (by omega)
        have hlen2 : ((rom2.set e.1 (a % 256)).set (e.1 + 1) (a / 256 % 256)).length
            = rom1.length := by
          rw [resolveOne_ok_length hre]
          simp [List.length_set, hlen]
        obtain ⟨rom2', h2⟩ := ih h hlen2
        refine ⟨rom2', ?_⟩
        unfold resolveList
        rw [hre2]
        exact h2

/-- C10: on a session whose resolution succeeds, `resolve-all` is
idempotent — invoking it again on the resolved state succeeds and returns
that state unchanged (the byte image and every other field). -/
theorem resolve_fixups_idempotent (cg cg' : CodeGen)
    (h : cg.resolve_fixups = .ok cg') : cg'.resolve_fixups = .ok cg' := by
  unfold resolve_fixups at h
  cases hr : resolveList cg.labels cg.rom cg.fixups with
  | error err => rw [hr] at h; cases h
  | ok rom' =>
      rw [hr] at h
      cases h
      obtain ⟨rom2', hr2⟩ := resolveList_ok_exists hr (resolveList_ok_length hr)
      have hext : rom2' = rom' := by
        apply List.ext_getElem?
        intro j
        cases hs : storeVal cg.labels cg.fixups j with
        | some v =>
            rw [resolveList_getElem?_some hr2 hs, resolveList_getElem?_some hr hs]
        | none => exact resolveList_getElem?_none hr2 hs
      show (match resolveList cg.labels rom' cg.fixups with
        | .error err => Except.error err
        | .ok rom2 => Except.ok { cg with rom := rom2 }) = .ok { cg with rom := rom' }
      rw [hr2, hext]

/-- Witness for idempotence: resolving the one-fixup session twice. -/
theorem resolve_fixups_idempotent_witness :
    fixExample.resolve_fixups = .ok { fixExample with rom := [2, 0] } ∧
    ({ fixExample with rom := [2, 0] } : CodeGen).resolve_fixups
      = .ok { fixExample with rom := [2, 0] } := by
  refine ⟨rfl, ?_⟩
  exact resolve_fixups_idempotent fixExample { fixExample with rom := [2, 0] } rfl

/-- A ledger entry writes nothing outside its two-byte slot. -/
theorem writeOf_other {ls : List (String × Nat)} {e : Nat × String} {j : Nat}
    (h1 : j ≠ e.1) (h2 : j ≠ e.1 + 1) : writeOf ls e j = none := by
  unfold writeOf
  split
  · rfl
  · rw [if_neg h1, if_neg h2]

/-- A ledger entry with resolved address writes the low byte at its offset. -/
theorem writeOf_lo {ls : List (String × Nat)} {o : Nat} {L : String} {A : Nat}
    (hA : getLabel ls L = some A) : writeOf ls (o, L) o = some (A % 256) := by
  simp [writeOf, hA]

/-- A ledger entry with resolved address writes the high byte one past its
offset. -/
theorem writeOf_hi {ls : List (String × Nat)} {o : Nat} {L : String} {A : Nat}
    (hA : getLabel ls L = some A) : writeOf ls (o, L) (o + 1) = some (A / 256 % 256) := by
  simp [writeOf, hA]

/-- No ledger entry writes an index outside all slots. -/
theorem storeVal_eq_none {ls : List (String × Nat)} {fs : List (Nat × String)} {j : Nat}
    (h : ∀ e ∈ fs, j ≠ e.1 ∧ j ≠ e.1 + 1) : storeVal ls fs j = none := by
  induction fs with
  | nil => rfl
  | cons e rest ih =>
      have hrest : storeVal ls rest j = none :=
        ih (fun e' he' => h e' (List.mem_cons_of_mem _ he'))
      unfold storeVal
      rw [hrest]
      show writeOf ls e j = none
      exact writeOf_other (h e (List.mem_cons_self _ _)).1 (h e (List.mem_cons_self _ _)).2

/-- When a ledger entry's slot is disjoint from every other entry's slot, the
final value stored at its two indices is its label's little-endian address. -/
theorem storeVal_eq_some {ls : List (String × Nat)} {fs : List (Nat × String)} {o : Nat}
    {L : String} {A : Nat} (hA : getLabel ls L = some A) (hmem : (o, L) ∈ fs)
    (hdisj : ∀ e ∈ fs, e = (o, L) ∨ e.1 + 1 < o ∨ o + 1 < e.1) :
    storeVal ls fs o = some (A % 256) ∧ storeVal ls fs (o + 1) = some (A / 256 % 256) := by
  induction fs with
  | nil => cases hmem
  | cons e rest ih =>
      by_cases hm : (o, L) ∈ rest
      · obtain ⟨ih1, ih2⟩ := ih hm (fun e' he' => hdisj e' (List.mem_cons_of_mem _ he'))
        constructor
        · unfold storeVal
          rw [ih1]
        · unfold storeVal
          rw [ih2]
      · have he : e = (o, L) := by
          rcases List.mem_cons.mp hmem with h | h
          · exact h.symm
          · exact absurd h hm
        subst he
        have hother : ∀ e' ∈ rest, (e'.1 + 1 < o ∨ o + 1 < e'.1) := by
          intro e' he'
          rcases hdisj e' (List.mem_cons_of_mem _ he') with h | h
          · exact absurd (h ▸ he') hm
          · exact h
        have hn1 : storeVal ls rest o = none :=
          storeVal_eq_none (fun e' he' => by
            rcases hother e' he' with h | h
            · exact ⟨by omega, by omega⟩
            · exact ⟨by omega, by omega⟩)
        have hn2 : storeVal ls rest (o + 1) = none :=
          storeVal_eq_none (fun e' he' => by
            rcases hother e' he' with h | h
            · exact ⟨by omega, by omega⟩
            · exact ⟨by omega, by omega⟩)
        constructor
        · unfold storeVal
          rw [hn1]
          show writeOf ls (o, L) o = some (A % 256)
          exact writeOf_lo hA
        · unfold storeVal
          rw [hn2]
          show writeOf ls (o, L) (o + 1) = some (A / 256 % 256)
          exact writeOf_hi hA

/-- In a ledger with strictly increasing non-overlapping slots, every entry
is either the given one or has a slot disjoint from the given one's. -/
theorem pairwise_mem_disjoint {fs : List (Nat × String)} {o : Nat} {L : String}
    (hp : fs.Pairwise (fun e1 e2 => e1.1 + 1 < e2.1)) (hmem : (o, L) ∈ fs) :
    ∀ e ∈ fs, e = (o, L) ∨ e.1 + 1 < o ∨ o + 1 < e.1 := by
  induction fs with
  | nil => intro e he; cases he
  | cons a rest ih =>
      rw [List.pairwise_cons] at hp
      intro e he
      rcases List.mem_cons.mp hmem with hoL | hoL
      · rcases List.mem_cons.mp he with he' | he'
        · exact Or.inl (he'.trans hoL.symm)
        · right; right
          have := hp.1 e he'
          rw [← hoL] at this
          simpa using this
      · rcases List.mem_cons.mp he with he' | he'
        · right; left
          have := hp.1 (o, L) hoL
          simp at this
          rw [he']
          exact this
        · exact ih hp.2 hoL e he'

/-- Entries of the table after an insert: the inserted pair or an old entry. -/
theorem insertLabel_mem {ls : List (String × Nat)} {n : String} {a : Nat}
    {kv : String × Nat} (h : kv ∈ insertLabel ls n a) : kv = (n, a) ∨ kv ∈ ls := by
  induction ls with
  | nil => simpa [insertLabel] using h
  | cons kv' rest ih =>
      obtain ⟨k, v⟩ := kv'
      have hins : insertLabel ((k, v) :: rest) n a =
          if k = n then (n, a) :: rest else (k, v) :: insertLabel rest n a := rfl
      rw [hins] at h
      by_cases hk : k = n
      · rw [if_pos hk] at h
        rcases List.mem_cons.mp h with h | h
        · exact Or.inl h
        · exact Or.inr (List.mem_cons_of_mem _ h)
      · rw [if_neg hk] at h
        rcases List.mem_cons.mp h with h | h
        · exact Or.inr (h ▸ List.mem_cons_self _ _)
        · rcases ih h with h' | h'
          · exact Or.inl h'
          · exact Or.inr (List.mem_cons_of_mem _ h')

/-- Appending bytes to the image preserves the session invariant. -/
theorem wf_append_rom {cg : CodeGen} (l : List Nat) (h : WellFormed cg) :
    WellFormed { cg with rom := cg.rom ++ l } := by
  obtain ⟨h1, h2, h3⟩ := h
  refine ⟨fun e he => ?_, h2, h3⟩
  have := h1 e he
  simp only [List.length_append]
  omega

/-- Every reachable session state satisfies the structural invariant: ledger
slots in bounds, ledger offsets strictly increasing and non-overlapping,
symbol addresses below 2^16. -/
theorem reachable_wf {cg : CodeGen} (h : Reachable cg) : WellFormed cg := by
  induction h with
  | start cfg =>
      exact ⟨by simp [with_config], by simp [with_config], by simp [with_config]⟩
  | emit_step bytes _ ih => exact wf_append_rom _ ih
  | emit_byte_step b _ ih => exact wf_append_rom _ ih
  | emit_word_step w _ ih => exact wf_append_rom _ ih
  | emit_string_step s _ ih => exact wf_append_rom [0] (wf_append_rom (stringBytes s) ih)
  | emit_string_raw_step s _ ih => exact wf_append_rom _ ih
  | label_step n _ ih =>
      obtain ⟨h1, h2, h3⟩ := ih
      refine ⟨h1, h2, fun kv hkv => ?_⟩
      rcases insertLabel_mem hkv with h' | h'
      · rw [h']
        show _ % 65536 < 65536
        omega
      · exact h3 kv h'
  | fixup_step n _ ih =>
      rename_i cg _
      obtain ⟨h1, h2, h3⟩ := ih
      refine ⟨?_, ?_, h3⟩
      · intro e he
        rcases List.mem_append.mp he with h' | h'
        · have := h1 e h'
          show e.1 + 1 < (cg.rom ++ [0, 0]).length
          simp only [List.length_append, List.length_cons, List.length_nil]
          omega
        · have he' : e = (cg.rom.length, n) := by simpa using h'
          rw [he']
          show cg.rom.length + 1 < (cg.rom ++ [0, 0]).length
          simp only [List.length_append, List.length_cons, List.length_nil]
          omega
      · show (cg.fixups ++ [(cg.rom.length, n)]).Pairwise (fun e1 e2 => e1.1 + 1 < e2.1)
        rw [List.pairwise_append]
        refine ⟨h2, List.pairwise_singleton _ _, fun e he b hb => ?_⟩
        have hb' : b = (cg.rom.length, n) := by simpa using hb
        rw [hb']
        exact h1 e he
  | unique_label_step p _ ih => exact ih
  | emit_relative_step n _ hok ih =>
      unfold emit_relative at hok
      split at hok
      · cases hok
      · cases hok
        exact wf_append_rom _ ih

/-- On a ledger whose slots are all in bounds, the resolver never fails with
the out-of-bounds indexing panic. -/
theorem resolveList_no_oob {ls : List (String × Nat)} {rom : List Nat}
    {fs : List (Nat × String)} (hb : ∀ e ∈ fs, e.1 + 1 < rom.length) (o : Nat) :
    resolveList ls rom fs ≠ .error (.indexOutOfBounds o) := by
  induction fs generalizing rom with
  | nil => intro h; cases h
  | cons e rest ih =>
      intro h
      unfold resolveList at h
      split at h
      · rename_i err hre
        cases h
        unfold resolveOne at hre
        split at hre
        · cases hre
        · split at hre
          · cases hre
          · rename_i hblt
            exact hblt (hb e (List.mem_cons_self _ _))
      · rename_i rom1 hre
        have hlen := resolveOne_ok_length hre
        exact ih (fun e' he' => by rw [hlen]; exact hb e' (List.mem_cons_of_mem _ he')) h

/-- C9: in every reachable session state, each ledger entry's two-byte slot
lies strictly inside the byte image, so both byte writes of `resolve-all`
are in bounds and the resolver can never fail with the out-of-bounds
indexing panic. -/
theorem reachable_fixups_inbounds (cg : CodeGen) (hr : Reachable cg) :
    (∀ e ∈ cg.fixups, e.1 + 1 < cg.rom.length) ∧
    (∀ o, cg.resolve_fixups ≠ .error (.indexOutOfBounds o)) := by
  have hwf := reachable_wf hr
  refine ⟨hwf.1, fun o h => ?_⟩
  unfold resolve_fixups at h
  split at h
  · rename_i err hres
    cases h
    exact resolveList_no_oob hwf.1 o hres
  · cases h

/-- Witness for the in-bounds theorem at a concrete reachable session. -/
theorem reachable_fixups_inbounds_witness :
    (∀ e ∈ fixExample.fixups, e.1 + 1 < fixExample.rom.length) ∧
    (∀ o, fixExample.resolve_fixups ≠ .error (.indexOutOfBounds o)) :=
  reachable_fixups_inbounds fixExample
    (Reachable.label_step "L" (Reachable.fixup_step "L" (Reachable.start RomConfig.default)))

/-- On a ledger with in-bounds slots containing an entry whose label is
undefined, the resolver fails with the undefined-label panic, naming an
undefined symbol that occurs in the ledger (the first such entry). -/
theorem resolveList_undefined {ls : List (String × Nat)} {rom : List Nat}
    {fs : List (Nat × String)} {o : Nat} {n : String}
    (hb : ∀ e ∈ fs, e.1 + 1 < rom.length) (hmem : (o, n) ∈ fs)
    (hundef : getLabel ls n = none) :
    ∃ m, resolveList ls rom fs = .error (.undefinedLabel m) ∧ getLabel ls m = none ∧
      ∃ o', (o', m) ∈ fs := by
  induction fs generalizing rom with
  | nil => cases hmem
  | cons e rest ih =>
      cases hg : getLabel ls e.2 with
      | none =>
          refine ⟨e.2, ?_, hg, e.1, List.mem_cons_self e rest⟩
          have hre : resolveOne ls rom e = .error (.undefinedLabel e.2) := by
            unfold resolveOne
            split
            · rfl
            · rename_i a heq
              rw [hg] at heq
              cases heq
          unfold resolveList
          rw [hre]
      | some a =>
          have hne : e.2 ≠ n := fun hh => by rw [hh, hundef] at hg; cases hg
          have hmem' : (o, n) ∈ rest := by
            rcases List.mem_cons.mp hmem with h | h
            · exact absurd (congrArg Prod.snd h).symm hne
            · exact h
          have hb1 : e.1 + 1 < rom.length := hb e (List.mem_cons_self _ _)
          have hre := resolveOne_ok_intro hg hb1
          have hb' : ∀ e' ∈ rest,
              e'.1 + 1 < ((rom.set e.1 (a % 256)).set (e.1 + 1) (a / 256 % 256)).length := by
            intro e' he'
            simp only [List.length_set]
            exact hb e' (List.mem_cons_of_mem _ he')
          obtain ⟨m, hres, hm, o', ho'⟩ := ih hb' hmem'
          refine ⟨m, ?_, hm, o', List.mem_cons_of_mem _ ho'⟩
          unfold resolveList
          rw [hre]
          exact hres

/-- C2: on every reachable session whose ledger contains an entry with an
undefined label, `resolve-all` fails fatally (the embedded form of the Rust
panic that aborts generation) with an undefined-label error naming an
undefined symbol from the ledger, and never completes normally. -/
theorem resolve_undefined_fatal (cg : CodeGen) (o : Nat) (n : String)
    (hr : Reachable cg) (hmem : (o, n) ∈ cg.fixups)
    (hundef : getLabel cg.labels n = none) :
    ∃ m, cg.resolve_fixups = .error (.undefinedLabel m) ∧ getLabel cg.labels m = none ∧
      (∃ o', (o', m) ∈ cg.fixups) ∧ ∀ cg', cg.resolve_fixups ≠ .ok cg' := by
  obtain ⟨m, hres, hm, o', ho'⟩ :=
    resolveList_undefined (reachable_wf hr).1 hmem hundef
  have hfull : cg.resolve_fixups = .error (.undefinedLabel m) := by
    unfold resolve_fixups
    rw [hres]
  exact ⟨m, hfull, hm, ⟨o', ho'⟩, fun cg' hok => by rw [hfull] at hok; cases hok⟩

/-- Witness for the undefined-symbol theorem at a concrete session. -/
theorem resolve_undefined_fatal_witness :
    ∃ m, undefExample.resolve_fixups = .error (.undefinedLabel m) ∧
      getLabel undefExample.labels m = none ∧
      (∃ o', (o', m) ∈ undefExample.fixups) ∧
      ∀ cg', undefExample.resolve_fixups ≠ .ok cg' :=
  resolve_undefined_fatal undefExample 0 "missing"
    (Reachable.fixup_step "missing" (Reachable.start RomConfig.default))
    (by decide) (by decide)

/-- C1 as amended: on every reachable session whose ledger records offset `o`
for label `L`, with `L` bound to `A` at resolution time, a successful
`resolve-all` stores the little-endian encoding of `A` at offsets `o` and
`o + 1`, preserves the image length, the symbol table, the fixup ledger and
the configuration, and changes no byte outside the two-byte slots recorded
in the ledger. -/
theorem resolve_fixup_slot_effect (cg cg' : CodeGen) (o : Nat) (L : String) (A : Nat)
    (hr : Reachable cg) (hmem : (o, L) ∈ cg.fixups)
    (hA : getLabel cg.labels L = some A)
    (hok : cg.resolve_fixups = .ok cg') :
    cg'.rom[o]? = some (A % 256) ∧ cg'.rom[o + 1]? = some (A / 256) ∧
    cg'.rom.length = cg.rom.length ∧ cg'.labels = cg.labels ∧
    cg'.fixups = cg.fixups ∧ cg'.config = cg.config ∧
    ∀ j, (∀ e ∈ cg.fixups, j ≠ e.1 ∧ j ≠ e.1 + 1) → cg'.rom[j]? = cg.rom[j]? := by
  obtain ⟨h1, h2, h3⟩ := reachable_wf hr
  have hA16 : A < 65536 := h3 (L, A) (getLabel_mem hA)
  have hdisj := pairwise_mem_disjoint h2 hmem
  unfold resolve_fixups at hok
  split at hok
  · cases hok
  · rename_i rom' hres
    cases hok
    obtain ⟨hs1, hs2⟩ := storeVal_eq_some hA hmem hdisj
    have hdiv : A / 256 % 256 = A / 256 := Nat.mod_eq_of_lt (by omega)
    refine ⟨resolveList_getElem?_some hres hs1, ?_,
      resolveList_ok_length hres, rfl, rfl, rfl, ?_⟩
    · rw [← hdiv]
      exact resolveList_getElem?_some hres hs2
    · intro j hj
      exact resolveList_getElem?_none hres (storeVal_eq_none hj)

/-- Witness for the amended resolution-effect theorem at a concrete session:
one fixup on "L" at offset 0, "L" defined at address 2. -/
theorem resolve_fixup_slot_effect_witness :
    fixExample.resolve_fixups = .ok { fixExample with rom := [2, 0] } ∧
    ({ fixExample with rom := [2, 0] } : CodeGen).rom[0]? = some 2 ∧
    ({ fixExample with rom := [2, 0] } : CodeGen).rom[1]? = some 0 ∧
    ({ fixExample with rom := [2, 0] } : CodeGen).labels = fixExample.labels := by
  have hr : Reachable fixExample :=
    Reachable.label_step "L" (Reachable.fixup_step "L" (Reachable.start RomConfig.default))
  have h := resolve_fixup_slot_effect fixExample { fixExample with rom := [2, 0] }
    0 "L" 2 hr (by decide) (by decide) rfl
  exact ⟨rfl, h.1, h.2.1, h.2.2.2.1⟩

/-- Counterexample to C1 as stated: in the two-fixup session, the ledger
records offset 0 for "L" and "L" resolves to 4, yet a successful
`resolve-all` also changes the byte at offset 2 — an index that is neither
0 nor 1 — from 0 to 4 (it is the other entry's slot), so resolution does
not leave every byte outside offsets o and o+1 unchanged. -/
theorem resolve_touches_other_slot :
    (0, "L") ∈ twoFixExample.fixups ∧
    getLabel twoFixExample.labels "L" = some 4 ∧
    twoFixExample.resolve_fixups = .ok { twoFixExample with rom := [4, 0, 4, 0] } ∧
    twoFixExample.rom[2]? = some 0 ∧
    ({ twoFixExample with rom := [4, 0, 4, 0] } : CodeGen).rom[2]? = some 4 ∧
    ((2 : Nat) ≠ 0 ∧ (2 : Nat) ≠ 0 + 1) := by
  exact ⟨by decide, by decide, rfl, by decide, by decide, by decide, by decide⟩

/-- Chunking with sufficient fuel concatenates back to the original list. -/
theorem chunks16Go_flatten : ∀ (fuel : Nat) (l : List Nat), l.length ≤ fuel →
    (chunks16Go fuel l).flatten = l := by
  intro fuel
  induction fuel with
  | zero =>
      intro l hl
      have hnil : l = [] := List.eq_nil_of_length_eq_zero (by omega)
      subst hnil
      rfl
  | succ fuel ih =>
      intro l hl
      cases l with
      | nil => rfl
      | cons b rest =>
          have hl' : rest.length + 1 ≤ fuel + 1 := by simpa using hl
          show (((b :: rest).take 16) :: chunks16Go fuel ((b :: rest).drop 16)).flatten
            = b :: rest
          rw [List.flatten_cons]
          rw [ih _ (by simp only [List.length_drop, List.length_cons]; omega)]
          exact List.take_append_drop 16 (b :: rest)

/-- Every chunk produced by the chunking worker has at most 16 bytes. -/
theorem chunks16Go_mem_length : ∀ (fuel : Nat) (l c : List Nat),
    c ∈ chunks16Go fuel l → c.length ≤ 16 := by
  intro fuel
  induction fuel with
  | zero =>
      intro l c hc
      cases l with
      | nil => cases hc
      | cons b rest => cases hc
  | succ fuel ih =>
      intro l c hc
      cases l with
      | nil => cases hc
      | cons b rest =>
          rcases List.mem_cons.mp hc with h | h
          · rw [h, List.length_take]
            exact min_le_left _ _
          · exact ih _ _ h

/-- The serializer's chunking concatenates back to the image. -/
theorem chunks16_flatten (l : List Nat) : (chunks16 l).flatten = l :=
  chunks16Go_flatten l.length l le_rfl

/-- Every chunk of the serializer's chunking has at most 16 bytes. -/
theorem chunks16_mem_length {l c : List Nat} (h : c ∈ chunks16 l) : c.length ≤ 16 :=
  chunks16Go_mem_length l.length l c h

/-- Every record of the enumerated loop comes from a chunk of its input. -/
theorem hexRecordsAux_mem {org : Nat} : ∀ {i : Nat} {cs : List (List Nat)} {r : HexRecord},
    r ∈ hexRecordsAux org i cs → ∃ k c, c ∈ cs ∧ r = mkHexRecord org k c := by
  intro i cs
  induction cs generalizing i with
  | nil => intro r hr; cases hr
  | cons c rest ih =>
      intro r hr
      rcases List.mem_cons.mp hr with h | h
      · exact ⟨i, c, List.mem_cons_self _ _, h⟩
      · obtain ⟨k, c', hc', hr'⟩ := ih h
        exact ⟨k, c', List.mem_cons_of_mem _ hc', hr'⟩

/-- C6: the Intel HEX serializer partitions the image into consecutive
chunks of at most 16 bytes (their concatenation is the image); for every
data record it emits, the sum mod 256 of the length byte, both address
bytes, all data bytes and the record's own checksum byte is 0; and the
final line emitted is always exactly the literal `:00000001FF`. -/
theorem hex_output_sound (cg : CodeGen) :
    (∀ r ∈ hexRecords cg,
        (r.len + r.addr / 256 % 256 + r.addr % 256 + r.data.sum + r.checksum) % 256 = 0 ∧
        r.data.length ≤ 16) ∧
    (chunks16 cg.rom).flatten = cg.rom ∧
    (∀ c ∈ chunks16 cg.rom, c.length ≤ 16) ∧
    (write_hex_lines cg).getLast? = some ":00000001FF" := by
  refine ⟨?_, chunks16_flatten cg.rom, fun c hc => chunks16_mem_length hc, ?_⟩
  · intro r hr
    obtain ⟨k, c, hc, rfl⟩ := hexRecordsAux_mem hr
    constructor
    · simp only [mkHexRecord, hexChecksum]
      omega
    · show c.length ≤ 16
      exact chunks16_mem_length hc
  · exact List.getLast?_concat _

/-- Witness for the serializer theorem at a concrete two-byte image. -/
theorem hex_output_sound_witness :
    ((⟨2, 0, [18, 52], 184⟩ : HexRecord) ∈ hexRecords hexExample) ∧
    ((2 : Nat) + 0 / 256 % 256 + 0 % 256 + ([18, 52] : List Nat).sum + 184) % 256 = 0 := by
  have hm : (⟨2, 0, [18, 52], 184⟩ : HexRecord) ∈ hexRecords hexExample := by decide
  exact ⟨hm, ((hex_output_sound hexExample).1 _ hm).1⟩

/-- Decimal digit characters have the expected code points. -/
theorem digitChar_toNat {d : Nat} (h : d < 10) : (digitChar d).toNat = 48 + d := by
  interval_cases d <;> decide

/-- Every character of a decimal rendering is a digit character. -/
theorem natDecimalGo_digit : ∀ (fuel n : Nat), n < fuel →
    ∀ c ∈ natDecimalGo fuel n, ∃ d, d < 10 ∧ c = digitChar d := by
  intro fuel
  induction fuel with
  | zero => intro n hn; exact absurd hn (Nat.not_lt_zero n)
  | succ fuel ih =>
      intro n hn c hc
      by_cases h10 : n < 10
      · unfold natDecimalGo at hc
        rw [if_pos h10] at hc
        have : c = digitChar n := by simpa using hc
        exact ⟨n, h10, this⟩
      · unfold natDecimalGo at hc
        rw [if_neg h10] at hc
        rcases List.mem_append.mp hc with h | h
        · exact ih (n / 10) (by omega) c h
        · have : c = digitChar (n % 10) := by simpa using h
          exact ⟨n % 10, by omega, this⟩

/-- The underscore is not a digit, so it never occurs in a decimal
rendering. -/
theorem no_underscore_natDecimal {n : Nat} : '_' ∉ natDecimal n := by
  intro hc
  obtain ⟨d, hd, hcd⟩ := natDecimalGo_digit (n + 1) n (by omega) _ hc
  have hv := digitChar_toNat hd
  rw [← hcd] at hv
  have h95 : ('_').toNat = 95 := by decide
  omega

/-- Folding the decimal digits of `n` onto an accumulator reconstructs
`n` positionally. -/
theorem natDecimalGo_foldl : ∀ (fuel n a : Nat), n < fuel →
    (natDecimalGo fuel n).foldl (fun x c => x * 10 + (c.toNat - 48)) a
      = a * 10 ^ (natDecimalGo fuel n).length + n := by
  intro fuel
  induction fuel with
  | zero => intro n a hn; exact absurd hn (Nat.not_lt_zero n)
  | succ fuel ih =>
      intro n a hn
      by_cases h10 : n < 10
      · unfold natDecimalGo
        rw [if_pos h10]
        show a * 10 + ((digitChar n).toNat - 48) = a * 10 ^ 1 + n
        rw [digitChar_toNat h10, pow_one]
        omega
      · unfold natDecimalGo
        rw [if_neg h10, List.foldl_append, ih (n / 10) a (by omega)]
        show (a * 10 ^ (natDecimalGo fuel (n / 10)).length + n / 10) * 10 +
            ((digitChar (n % 10)).toNat - 48)
          = a * 10 ^ (natDecimalGo fuel (n / 10) ++ [digitChar (n % 10)]).length + n
        rw [digitChar_toNat (by omega), List.length_append, List.length_singleton,
          pow_succ, ← mul_assoc]
        omega

/-- Decimal rendering is injective. -/
theorem natDecimal_inj {n1 n2 : Nat} (h : natDecimal n1 = natDecimal n2) : n1 = n2 := by
  have h1 := natDecimalGo_foldl (n1 + 1) n1 0 (by omega)
  have h2 := natDecimalGo_foldl (n2 + 1) n2 0 (by omega)
  unfold natDecimal at h
  rw [h] at h1
  simp only [Nat.zero_mul, Nat.zero_add] at h1 h2
  omega

/-- Splitting two equal lists at their last underscore: when the suffixes
are underscore-free, both parts agree. -/
theorem last_delim_inj : ∀ (l1 l2 d1 d2 : List Char), '_' ∉ d1 → '_' ∉ d2 →
    l1 ++ '_' :: d1 = l2 ++ '_' :: d2 → l1 = l2 ∧ d1 = d2 := by
  intro l1
  induction l1 with
  | nil =>
      intro l2 d1 d2 h1 h2 heq
      cases l2 with
      | nil =>
          injection heq with _ hd
          exact ⟨rfl, hd⟩
      | cons c l2' =>
          simp only [List.nil_append, List.cons_append] at heq
          injection heq with hc hrest
          exfalso
          apply h1
          rw [hrest]
          exact List.mem_append.mpr (Or.inr (List.mem_cons_self _ _))
  | cons c l1' ih =>
      intro l2 d1 d2 h1 h2 heq
      cases l2 with
      | nil =>
          simp only [List.nil_append, List.cons_append] at heq
          injection heq with hc hrest
          exfalso
          apply h2
          rw [← hrest]
          exact List.mem_append.mpr (Or.inr (List.mem_cons_self _ _))
      | cons c2 l2' =>
          simp only [List.cons_append] at heq
          injection heq with hc hrest
          obtain ⟨hl, hd⟩ := ih l2' d1 d2 h1 h2 hrest
          exact ⟨by rw [hc, hl], hd⟩

/-- Names minted from distinct counter values are distinct, for any two
(possibly different) given name stems: the counter digits follow the last
underscore of the name and contain no underscore themselves. -/
theorem uniqueName_inj {p1 p2 : String} {n1 n2 : Nat} (hne : n1 ≠ n2) :
    "_" ++ p1 ++ "_" ++ natDecimalStr n1 ≠ "_" ++ p2 ++ "_" ++ natDecimalStr n2 := by
  intro heq
  have hdata := congrArg String.data heq
  simp only [String.data_append] at hdata
  rw [show (natDecimalStr n1).data = natDecimal n1 from rfl,
    show (natDecimalStr n2).data = natDecimal n2 from rfl] at hdata
  simp only [List.append_assoc, List.cons_append, List.nil_append] at hdata
  injection hdata with hhead hdata
  obtain ⟨-, hd⟩ := last_delim_inj _ _ _ _ no_underscore_natDecimal
    no_underscore_natDecimal hdata
  exact hne (natDecimal_inj hd)

/-- C8 as amended: the generator returns the underscore-prefixed name
`"_" ++ stem ++ "_" ++ N` (not `stem_N`) where `N` is the session counter
incremented in wrapping u32 arithmetic; any two calls whose wrapped counter
values differ — hence any two of the first 2^32 calls within one session,
since every other core operation preserves the counter — return distinct
names, whatever stems are supplied; once the counter wraps around, names
from equal wrapped counter values repeat. -/
theorem unique_label_shape_distinct :
    (∀ (cg : CodeGen) (p : String), cg.unique_label p =
        ("_" ++ p ++ "_" ++ natDecimalStr ((cg.unique_counter + 1) % 4294967296),
          { cg with unique_counter := (cg.unique_counter + 1) % 4294967296 })) ∧
    (∀ (p1 p2 : String) (n1 n2 : Nat), n1 ≠ n2 →
        ("_" ++ p1 ++ "_" ++ natDecimalStr n1) ≠ ("_" ++ p2 ++ "_" ++ natDecimalStr n2)) ∧
    (∀ (cg1 cg2 : CodeGen) (p1 p2 : String),
        (cg1.unique_counter + 1) % 4294967296 ≠ (cg2.unique_counter + 1) % 4294967296 →
        (cg1.unique_label p1).1 ≠ (cg2.unique_label p2).1) ∧
    (∀ (cg : CodeGen) (p : String),
        (cg.unique_label p).2.unique_counter = (cg.unique_counter + 1) % 4294967296) ∧
    (∀ (cg : CodeGen) (bs : List Nat), (cg.emit bs).unique_counter = cg.unique_counter) ∧
    (∀ (cg : CodeGen) (b : Nat), (cg.emit_byte b).unique_counter = cg.unique_counter) ∧
    (∀ (cg : CodeGen) (w : Nat), (cg.emit_word w).unique_counter = cg.unique_counter) ∧
    (∀ (cg : CodeGen) (s : String), (cg.emit_string s).unique_counter = cg.unique_counter) ∧
    (∀ (cg : CodeGen) (s : String),
        (cg.emit_string_raw s).unique_counter = cg.unique_counter) ∧
    (∀ (cg : CodeGen) (s : String), (cg.label s).unique_counter = cg.unique_counter) ∧
    (∀ (cg : CodeGen) (s : String), (cg.fixup s).unique_counter = cg.unique_counter) ∧
    (∀ (cg cg' : CodeGen),
        cg.resolve_fixups = .ok cg' → cg'.unique_counter = cg.unique_counter) ∧
    (∀ (cg cg' : CodeGen) (s : String),
        cg.emit_relative s = .ok cg' → cg'.unique_counter = cg.unique_counter) ∧
    (∀ (cg1 cg2 : CodeGen) (p : String),
        cg1.unique_counter % 4294967296 = cg2.unique_counter % 4294967296 →
        (cg1.unique_label p).1 = (cg2.unique_label p).1) := by
  refine ⟨fun cg p => rfl, fun p1 p2 n1 n2 h => uniqueName_inj h, ?_, fun cg p => rfl,
    fun cg bs => rfl, fun cg b => rfl, fun cg w => rfl, fun cg s => rfl, fun cg s => rfl,
    fun cg s => rfl, fun cg s => rfl, ?_, ?_, ?_⟩
  · intro cg1 cg2 p1 p2 h
    exact uniqueName_inj h
  · intro cg cg' h
    unfold resolve_fixups at h
    split at h
    · cases h
    · cases h
      rfl
  · intro cg cg' s h
    unfold emit_relative at h
    split at h
    · cases h
    · cases h
      rfl
  · intro cg1 cg2 p h
    have hc : (cg1.unique_counter + 1) % 4294967296
        = (cg2.unique_counter + 1) % 4294967296 := by omega
    show "_" ++ p ++ "_" ++ natDecimalStr ((cg1.unique_counter + 1) % 4294967296)
      = "_" ++ p ++ "_" ++ natDecimalStr ((cg2.unique_counter + 1) % 4294967296)
    rw [hc]

/-- Witness for the unique-name theorem at concrete inputs: the first two
counter values mint distinct names whatever the stems, and at the u32
boundary the counter wraps to 0. -/
theorem unique_label_shape_distinct_witness :
    CodeGen.new.unique_label "loop" = ("_loop_1", { CodeGen.new with unique_counter := 1 }) ∧
    ("_loop_1" : String) ≠ "_loop_2" ∧
    (CodeGen.new.unique_label "loop").1
      ≠ (({ CodeGen.new with unique_counter := 1 } : CodeGen).unique_label "x").1 ∧
    (({ CodeGen.new with unique_counter := 4294967295 } : CodeGen).unique_label
      "loop").2.unique_counter = 0 := by
  refine ⟨?_, ?_, ?_, ?_⟩
  · exact unique_label_shape_distinct.1 CodeGen.new "loop"
  · exact unique_label_shape_distinct.2.1 "loop" "loop" 1 2 (by decide)
  · exact unique_label_shape_distinct.2.2.1 CodeGen.new
      { CodeGen.new with unique_counter := 1 } "loop" "x" (by decide)
  · exact unique_label_shape_distinct.2.2.2.1
      { CodeGen.new with unique_counter := 4294967295 } "loop"

/-- Counterexample to C8 as stated: the first generated name for the stem
"loop" is "_loop_1" — the counter became 1, but the name is not the given
stem concatenated with an underscore-delimited integer ("loop_1"); it
carries an extra leading underscore. -/
theorem unique_label_leading_underscore :
    (CodeGen.new.unique_label "loop").1 = "_loop_1" ∧
    (CodeGen.new.unique_label "loop").2.unique_counter = 1 ∧
    (CodeGen.new.unique_label "loop").1 ≠ "loop_1" ∧
    ((CodeGen.new.unique_label "loop").1.data.head? = some '_') := by
  refine ⟨by decide, rfl, by decide, by decide⟩

end CodeGen

end RetroShield
